import Mathlib

/-!
# Verification of the `spell` fuzzy-match ranking engine

Shallow embedding of the canonical revision of `main.go` of the `spell`
repository (the first, multi-factor revision; the later sections of the file
are superseded historical revisions).

Modelling conventions:
* Go strings are modelled as `List Char`.  All code paths relevant to the
  claims index strings byte-wise and the reference inputs are ASCII, where
  Go's byte/rune distinction is invisible.
* Go `uint8` arithmetic is modelled as `Nat` with explicit `% 256` at every
  point where the Go program converts to or computes in `uint8`.
* Go `float64` quantities produced by the scorer are modelled exactly:
  finite values as `ℚ` and `math.Inf(1)` as a designated infinity `W.inf`
  (all weights the program manufactures are non-negative sums and products
  of small rationals and `+Inf`, which float arithmetic orders the same way
  exact arithmetic does; no claim depends on float rounding).
* Slice reads whose index is not forced in bounds by the surrounding
  control flow are modelled with `List.get?`, so a Go panic (out-of-bounds
  access) surfaces as `Option.none`.  Functions that can panic are
  `Option`-valued.
* The dictionary trie comes from the external `txt` package; only its
  traversal contract is consumed (children keyed by character, terminal
  flag `Done`, payload `Data`).  The payload is modelled post-parse, as
  `Option ℚ` (`none` = non-numeric payload, which `strconv.ParseFloat`
  rejects and the code replaces by frequency 0).
-/

namespace Spell

/-- Exact model of the `float64` values the scorer builds: a finite rational
or `math.Inf(1)`. -/
inductive W where
  | fin : ℚ → W
  | inf : W
deriving DecidableEq, Repr

/-- Addition of weights; `+Inf` absorbs, as in IEEE arithmetic on the
non-negative values the scorer produces (no `Inf - Inf` ever occurs). -/
def W.add : W → W → W
  | .fin a, .fin b => .fin (a + b)
  | _, _ => .inf

/-- `x <= y` on modelled floats. -/
def W.le : W → W → Prop
  | _, .inf => True
  | .inf, .fin _ => False
  | .fin a, .fin b => a ≤ b

/-- `x < y` on modelled floats. -/
def W.lt : W → W → Prop
  | .inf, _ => False
  | .fin _, .inf => True
  | .fin a, .fin b => a < b

instance : DecidableRel W.le := fun a b => by
  cases a <;> cases b <;> simp only [W.le] <;> infer_instance

instance : DecidableRel W.lt := fun a b => by
  cases a <;> cases b <;> simp only [W.lt] <;> infer_instance

theorem W.leTotal (a b : W) : W.le a b ∨ W.le b a := by
  cases a <;> cases b <;> simp [W.le]
  exact le_total _ _

theorem W.leTrans {a b c : W} (h₁ : W.le a b) (h₂ : W.le b c) : W.le a c := by
  cases a <;> cases b <;> cases c <;> simp_all [W.le]
  exact ge_trans h₂ h₁

/-- The four-slot edit-distance record `ld [4]float64` of a `Correction`:
index 0 the total, index 1 the substitution count, index 2 the combined
insertion/deletion count, index 3 the transposition count (this is the
index layout used by `lev_weights` and by `levenshtein_with_operations`'s
backtracking tallies).  All entries the program ever stores are
non-negative integers, so they are modelled as `Nat`. -/
structure Ld4 where
  total : Nat
  subs : Nat
  indel : Nat
  swaps : Nat
deriving DecidableEq, Repr

/-- `min` of three `uint8` values, as the generic Go `min` helper computes
on the three-argument calls in `levenshtein`. -/
def min3 (a b c : Nat) : Nat := Nat.min a (Nat.min b c)

/-! ## `levenshtein` (main.go lines 389-467)

The two-row `uint8` dynamic-programming sweep, embedded loop by loop.
State of the inner loop: the shared row array, `current`, and `bl`.
`tl` is read from `prev_row[j-1]`, which at that moment already holds the
value the inner loop wrote at `j-1` — the embedding reproduces this
faithfully (it is the source of the function's deviation from the textbook
recurrence). -/

/-- One iteration of the inner loop `for j := 1; j <= len(a); j++`. -/
def levInner (a b : List Char) (i : Nat) (st : List Nat × Nat × Nat) (j : Nat) :
    Option (List Nat × Nat × Nat) := do
  let (row, _current, bl) := st
  let tr0 ← row.get? j
  let tl ← row.get? (j-1)
  let tr := if i = 1 then j % 256 else tr0
  let ca ← a.get? (j-1)
  let cb ← b.get? (i-1)
  let current ←
    if ca = cb then
      pure tl
    else
      if j < a.length ∧ i < b.length ∧ j+1 < a.length ∧ i+1 < b.length then do
        let cb1 ← b.get? i
        let ca1 ← a.get? j
        pure (if ca = cb1 ∧ ca1 = cb then tl else (min3 tl tr bl + 1) % 256)
      else
        pure ((min3 tl tr bl + 1) % 256)
  pure (row.set j current, current, current)

/-- One iteration of the outer loop `for i := 1; i <= len(b); i++`; the
second state component is `result`. -/
def levOuter (a b : List Char) (st : List Nat × Nat) (i : Nat) :
    Option (List Nat × Nat) := do
  let (row, _result) := st
  let row0 := row.set 0 (i % 256)
  let (row', current, _) ← (List.range' 1 a.length).foldlM (levInner a b i) (row0, 0, i % 256)
  pure (row', current)

/-- `levenshtein(a, b)`: the early returns, then the two-row sweep.  The Go
function returns `float64(current)` where `current` is a `uint8`; the value
is modelled as `Nat`. -/
def levenshtein (a b : List Char) : Option Nat :=
  if a = [] then some b.length
  else if b = [] then some a.length
  else if a = b then some 0
  else do
    let row := (List.range (a.length + 1)).map (· % 256)
    let (_, result) ← (List.range' 1 b.length).foldlM (levOuter a b) (row, 0)
    pure result

/-! ## `levenshtein_with_operations` (main.go lines 469-593)

The function builds the full `(lenA+1) × (lenB+1)` distance matrix and an
`ops` matrix, then backtracks from `(lenA, lenB)` tallying operation
counts.  Every matrix cell is written exactly once, from cells with a
strictly smaller index sum, so the matrices are embedded as the fuelled
recurrences `Mf`/`Opf` on cell indices (`M`/`Op` fix the fuel at `i + j`,
which `Mf_congr` shows is enough); cell `(i, j)` of `Mf`/`Opf` is computed
by exactly the body of the fill loop. -/

/-- Character of `s` at index `k`.  Every use below is at an index the
enclosing loop bounds of the Go code keep strictly inside `s`. -/
def charAt (s : List Char) (k : Nat) : Char := s.getD k ' '

/-- `cost` of cell `(i, j)` (`i, j ≥ 1`): 0 if `a[i-1] == b[j-1]`, else 1. -/
def lwoCost (a b : List Char) (i j : Nat) : Nat :=
  if charAt a (i-1) = charAt b (j-1) then 0 else 1

/-- The guard of the transposition candidate:
`i > 1 && j > 1 && a[i-2] == b[j-1] && a[i-1] == b[j-2]`. -/
def lwoSwapOk (a b : List Char) (i j : Nat) : Prop :=
  2 ≤ i ∧ 2 ≤ j ∧ charAt a (i-2) = charAt b (j-1) ∧ charAt a (i-1) = charAt b (j-2)

instance (a b : List Char) (i j : Nat) : Decidable (lwoSwapOk a b i j) := by
  unfold lwoSwapOk; infer_instance

/-- The distance matrix, as a fuelled recurrence on the cell index.
`Mf fuel i j` is `matrix[i][j]` whenever `i + j ≤ fuel`. -/
def Mf (a b : List Char) : Nat → Nat → Nat → Nat
  | _, 0, j => j
  | _, i+1, 0 => i+1
  | 0, _+1, _+1 => 0
  | fuel+1, i+1, j+1 =>
    let cost := lwoCost a b (i+1) (j+1)
    let ins := Mf a b fuel (i+1) j + 1
    let del := Mf a b fuel i (j+1) + 1
    let sub := Mf a b fuel i j + cost
    let base := Nat.min ins (Nat.min del sub)
    if lwoSwapOk a b (i+1) (j+1) then
      Nat.min base (Mf a b fuel (i-1) (j-1) + cost)
    else base

/-- `matrix[i][j]` of `levenshtein_with_operations`. -/
def M (a b : List Char) (i j : Nat) : Nat := Mf a b (i+j) i j

/-- The ops matrix: code 1 substitution, 2 insertion, 3 deletion,
4 transposition, 0 the (implicit) match/no-op case.  Boundary cells are
initialised to 1 by the fill prologue. -/
def Op (a b : List Char) (i j : Nat) : Nat :=
  if i = 0 ∨ j = 0 then 1
  else
    let cost := lwoCost a b i j
    let ins := M a b i (j-1) + 1
    let del := M a b (i-1) j + 1
    let sub := M a b (i-1) (j-1) + cost
    let m := M a b i j
    if m = sub ∧ cost = 1 then 1
    else if m = ins then 2
    else if m = del then 3
    else if lwoSwapOk a b i j ∧ m = M a b (i-2) (j-2) + cost then 4
    else 0

/-- The backtracking loop of `levenshtein_with_operations`, walking
`(lenA, lenB)` toward `(0, 0)` and tallying `(results[1], results[2],
results[3])`.  The loop indices are Go `int`s, modelled as `ℤ`; the read
`ops[lenA][lenB]` is bounds-checked (`none` = Go panic).  The fuel only
bounds the iteration count; `backtrack_isSome` shows the budget passed by
`levenshtein_with_operations` is never exhausted. -/
def backtrack (a b : List Char) : Nat → Int → Int → Nat × Nat × Nat → Option (Nat × Nat × Nat)
  | 0, _, _, _ => none
  | fuel+1, la, lb, (r1, r2, r3) =>
    if ¬(la > -1 ∨ lb > -1) then some (r1, r2, r3)
    else
      let decA : Int := if la = 0 then 0 else 1
      let decB : Int := if lb = 0 then 0 else 1
      if decB = 0 ∧ decA = 0 then some (r1, r2, r3)
      else if la < 0 ∨ lb < 0 ∨ la > a.length ∨ lb > b.length then none
      else
        let op := Op a b la.toNat lb.toNat
        if op = 1 then backtrack a b fuel (la - decA) (lb - decB) (r1+1, r2, r3)
        else if op = 2 then
          let lb' := lb - decB
          backtrack a b fuel (if lb' = 0 then la - decA else la) lb' (r1, r2+1, r3)
        else if op = 3 then
          let la' := la - decA
          backtrack a b fuel la' (if la' = 0 then lb - decB else lb) (r1, r2+1, r3)
        else if op = 4 then backtrack a b fuel (la - decA * 2) (lb - decB * 2) (r1, r2, r3+1)
        else backtrack a b fuel (la - decA) (lb - decB) (r1, r2, r3)

/-- `levenshtein_with_operations(a, b)`: early returns for empty and equal
strings, then the matrix total and the backtracking tallies.
`results = {0: total, 1: substitutions, 2: insertions+deletions,
3: transpositions}`. -/
def levenshtein_with_operations (a b : List Char) : Option Ld4 := do
  if a = [] ∨ b = [] then pure ⟨Nat.max a.length b.length, 0, 0, 0⟩
  else if a = b then pure ⟨0, 0, 0, 0⟩
  else
    let total := M a b a.length b.length
    let (r1, r2, r3) ← backtrack a b (a.length + b.length + 1)
      (a.length : Int) (b.length : Int) (0, 0, 0)
    pure ⟨total, r1, r2, r3⟩

/-! ## Keyboard proximity (main.go lines 136-215) -/

/-- The fixed QWERTY table `keys`. -/
def keys : List (List Char) :=
  [ ['`', '1', '2', '3', '4', '5', '6', '7', '8', '9', '0', '-', '='],
    ['q', 'w', 'e', 'r', 't', 'y', 'u', 'i', 'o', 'p', '[', ']', '\\'],
    ['a', 's', 'd', 'f', 'g', 'h', 'j', 'k', 'l', ';', '\'', ' ', ' '],
    ['z', 'x', 'c', 'v', 'b', 'n', 'm', ',', '.', '/', ' ', ' ', ' '] ]

/-- `all_keys`, the one-dimensional flattening of `keys` (the lazy,
build-once initialisation always produces exactly this list). -/
def all_keys : List Char := keys.flatten

/-- `KeyProximity(original, target)`: 0 on equal runes; otherwise scan
`all_keys` with a 1-based index, the last hit of each lower-cased rune
fixing its `(r, c)` decomposition, and return the Chebyshev distance plus a
case-mismatch penalty.  The Go `max` helper folds from an initial highest
of 0 and the result is converted to `uint8`. -/
def KeyProximity (original target : Char) : Nat :=
  if original = target then 0
  else
    match all_keys.enum.foldl (fun (st : Nat × Nat × Nat × Nat) p =>
        let (rO, cO, rT, cT) := st
        let idx := p.1 + 1
        let (rO, cO) := if p.2 = original.toLower then (idx - idx / 13 * 13, idx / 13) else (rO, cO)
        let (rT, cT) := if p.2 = target.toLower then (idx - idx / 13 * 13, idx / 13) else (rT, cT)
        (rO, cO, rT, cT)) (0, 0, 0, 0) with
    | (rO, cO, rT, cT) =>
      let rowDiff := ((rT : Int) - (rO : Int)).natAbs
      let colDiff := ((cT : Int) - (cO : Int)).natAbs
      let key_case := if (original.toLower == original) != (target.toLower == target) then 1 else 0
      (Nat.max colDiff rowDiff % 256 + key_case) % 256

/-! ## String-feature helpers (main.go lines 118-134, 237-263) -/

/-- `PrefixLength(o, t)`: count of equal characters from the start, walking
`t` with index `i`, returning early once `len(o)-1 < i` (an `int`
comparison) and otherwise reading `o[i]`; the counter is a `uint8`. -/
def PrefixLength (o t : List Char) : Option Nat :=
  go 0 0 t
where
  go (i n : Nat) : List Char → Option Nat
    | [] => some n
    | v :: rest =>
      if (o.length : Int) - 1 < (i : Int) then some n
      else
        match o.get? i with
        | none => none
        | some c => if v = c then go (i+1) ((n+1) % 256) rest else some n

/-- `SharedCharacters(original, target)`: positions in the overlapping
range where the two strings agree.  The Go function accumulates a
`float64`; the value is a count, modelled as `Nat`. -/
def SharedCharacters (original target : List Char) : Option Nat :=
  (List.range (Nat.min original.length target.length)).foldlM
    (fun acc i => do
      let c₁ ← original.get? i
      let c₂ ← target.get? i
      pure (if c₁ = c₂ then acc + 1 else acc))
    0

/-- `reverse(s)`: builds the reversal by prepending each scanned rune. -/
def reverse (s : List Char) : List Char := s.foldl (fun res v => v :: res) []

/-! ## The scorer `weigh` (main.go lines 217-321) -/

def LEV_WEIGHT : ℚ := 1/100000
def LEV_INDEL_WEIGHT : ℚ := 1
def LEV_SUB_WEIGHT : ℚ := 10
def LEV_SWAP_WEIGHT : ℚ := 1/10
def KEYDIST_WEIGHT : ℚ := 20
def PREFIX_WEIGHT : ℚ := 1
def SUFFIX_WEIGHT : ℚ := PREFIX_WEIGHT
def FREQUENCY_WEIGHT : ℚ := 10
def MATCHES_WEIGHT : ℚ := 1

/-- The `lev_weights` map; a missing key yields Go's zero value. -/
def lev_weights : Nat → ℚ
  | 0 => LEV_WEIGHT
  | 1 => LEV_SUB_WEIGHT
  | 2 => LEV_INDEL_WEIGHT
  | 3 => LEV_SWAP_WEIGHT
  | _ => 0

/-- `c.ld[i]` for the loop over the four slots. -/
def Ld4.entry : Ld4 → Nat → Nat
  | l, 0 => l.total
  | l, 1 => l.subs
  | l, 2 => l.indel
  | l, 3 => l.swaps
  | _, _ => 0

/-- The `Correction` record.  `Word` is the corrected word, `ld` the
four-slot distance record, `Weight` the composite score. -/
structure Correction where
  word : List Char
  ld : Ld4
  prefix_len : Nat
  suffix_len : Nat
  frequency : ℚ
  key_len : Nat
  Weight : W
deriving DecidableEq, Repr

/-- Go's zero value of `Correction` (the content of unfilled result
slots). -/
def Correction.zero : Correction :=
  { word := [], ld := ⟨0, 0, 0, 0⟩, prefix_len := 0, suffix_len := 0,
    frequency := 0, key_len := 0, Weight := .fin 0 }

/-- The `key_len` accumulation loop of `weigh`: walk `c.Word` with index
`i`, break once `len(original)-1 < i` (an `int` comparison), else read
`original[i]` and add the key proximity; the sum is a `uint8`. -/
def keyLenLoop (original : List Char) : Nat → Nat → List Char → Option Nat
  | _, acc, [] => some acc
  | i, acc, v :: rest =>
    if (original.length : Int) - 1 < (i : Int) then some acc
    else
      match original.get? i with
      | none => none
      | some c => keyLenLoop original (i+1) ((acc + KeyProximity v c) % 256) rest

/-- `(*Correction).weigh(original)`, returning the updated record.  The
exact-match shortcut assigns `math.Inf(1)`; otherwise the composite weight
is the sum of the per-signal terms in the order the Go source adds them,
with `magic_weight` collecting the `ld[0] == 0` infinity and the
`wprefix_len == wsuffix_len` bonus of 25. -/
def weigh (c : Correction) (original : List Char) : Option Correction :=
  if c.word = original then some { c with Weight := .inf }
  else do
    let kl0 ← keyLenLoop original 0 0 c.word
    let key_len :=
      if original.length > c.word.length then (kl0 + (original.length - c.word.length) % 256) % 256
      else if c.word.length > original.length then (kl0 + (c.word.length - original.length) % 256) % 256
      else kl0
    let pre ← PrefixLength c.word original
    let suf ← PrefixLength (reverse c.word) (reverse original)
    let wld_div : ℚ := (List.range 4).foldl
      (fun acc i => let w := (c.ld.entry i : ℚ) * lev_weights i; if w ≠ 0 then acc * w else acc) 1
    let wld : W := if wld_div = 0 then .inf else .fin (1 / wld_div)
    let magic₀ : W := if c.ld.total = 0 then W.add (.fin 0) .inf else .fin 0
    let wkey : W := if key_len = 0 then .inf else .fin (KEYDIST_WEIGHT / (key_len : ℚ))
    let wpre : ℚ := PREFIX_WEIGHT * (pre : ℚ)
    let wsuf : ℚ := SUFFIX_WEIGHT * (suf : ℚ)
    let magic : W := if wpre = wsuf then W.add magic₀ (.fin 25) else magic₀
    let wfreq : ℚ := FREQUENCY_WEIGHT * c.frequency
    let sh ← SharedCharacters original c.word
    let wmatch : ℚ := MATCHES_WEIGHT * (sh : ℚ)
    let weight := W.add (W.add (W.add (W.add (W.add (W.add wld wkey) (.fin wpre)) (.fin wfreq))
      (.fin wmatch)) (.fin wsuf)) magic
    pure { c with key_len := key_len, prefix_len := pre, suffix_len := suf, Weight := weight }

/-! ## The trie traversal `search_lev` (main.go lines 84-116)

The external `txt.Node` is consumed through its traversal contract: `Id`
(0 marks the root), `Done`, `Data` (payload, modelled post-parse as
`Option ℚ`) and `Kids`.  `Kids` is a Go map; the embedding fixes one
iteration order per node by using a list, and the claims quantify over all
such orders.  The variadic `prev` accumulator is always empty on entry and
only concatenated to, so it is modelled by returning the emitted list. -/

inductive Node where
  | mk : Nat → Bool → Option ℚ → List (Char × Node) → Node

def Node.id : Node → Nat
  | .mk i _ _ _ => i

def Node.done : Node → Bool
  | .mk _ d _ _ => d

def Node.data : Node → Option ℚ
  | .mk _ _ p _ => p

def Node.kids : Node → List (Char × Node)
  | .mk _ _ _ k => k

mutual
/-- `search_lev(n, s, b, limit)`.  At the root (`Id == 0`) each child is
searched with the path seeded to that child's rune.  Elsewhere, for each
child `v` keyed `rn`: the breakdown of the *current* path `b` against `s`
is computed; a terminal childless `v` emits `Correction{ld: lev, Word: b,
Weight: 0, frequency: freq}` when `lev[0] <= limit` (note: `b`, not
`b+string(rn)`), and any other child recurses with path `b+string(rn)`. -/
def search_lev (n : Node) (s b : List Char) (limit : ℚ) : Option (List Correction) :=
  match n with
  | .mk i _ _ kids =>
    if i = 0 then searchRootKids kids s limit
    else searchKids kids s b limit

/-- The `range n.Kids` loop of the root branch. -/
def searchRootKids (ks : List (Char × Node)) (s : List Char) (limit : ℚ) :
    Option (List Correction) :=
  match ks with
  | [] => some []
  | (rn, v) :: rest => do
    let r ← search_lev v s [rn] limit
    let r' ← searchRootKids rest s limit
    pure (r ++ r')

/-- The `range n.Kids` loop of the non-root branch. -/
def searchKids (ks : List (Char × Node)) (s b : List Char) (limit : ℚ) :
    Option (List Correction) :=
  match ks with
  | [] => some []
  | (rn, v) :: rest => do
    let lev ← levenshtein_with_operations b s
    let here ←
      if v.done && v.kids.isEmpty then
        if (lev.total : ℚ) ≤ limit then
          pure [{ word := b, ld := lev, Weight := .fin 0, frequency := v.data.getD 0,
                  prefix_len := 0, suffix_len := 0, key_len := 0 }]
        else pure []
      else search_lev v s (b ++ [rn]) limit
    let rest' ← searchKids rest s b limit
    pure (here ++ rest')
end

/-! ## The top-K selector `PartialMatch` (main.go lines 323-370) -/

/-- Ascending weight order, the order `sort.Slice(res, ...Weight <
...Weight)` establishes. -/
def corrLe (c₁ c₂ : Correction) : Prop := W.le c₁.Weight c₂.Weight

instance : DecidableRel corrLe := fun c₁ c₂ => by unfold corrLe; infer_instance

instance : IsTotal Correction corrLe := ⟨fun c₁ c₂ => W.leTotal c₁.Weight c₂.Weight⟩

instance : IsTrans Correction corrLe := ⟨fun _ _ _ => W.leTrans⟩

/-- The `sort.Slice` call: sorts the buffer by strictly-increasing weight
comparator, i.e. into ascending weight order. -/
def sortCorrections (l : List Correction) : List Correction := l.insertionSort corrLe

/-- One iteration of the candidate loop of `PartialMatch`: weigh the
candidate, set the acceptance threshold on the first element, and either
replace the first lower-weight buffer entry (buffer deemed full) or append
at `last` — each mutation followed by the sort.  The unguarded read
`res[last]` is bounds-checked (`none` = Go panic when `max == 0`). -/
def PartialMatchStep (s : List Char) (target : ℚ) (mx : Nat)
    (st : W × List Correction × Nat) (v₀ : Correction) :
    Option (W × List Correction × Nat) := do
  let (lim₀, res, last) := st
  let v ← weigh v₀ s
  let lim := if lim₀ = .fin 0 then v.Weight else lim₀
  if W.le lim v.Weight then
    match res.get? last with
    | none => none
    | some n₀ =>
      if n₀.word ≠ [] ∧ n₀.ld.total ≠ 0 then
        match res.findIdx? (fun k =>
            decide (W.lt k.Weight v.Weight) && decide ((v.ld.total : ℚ) ≤ target)) with
        | some i => pure (lim, sortCorrections (res.set i v), last)
        | none => pure (lim, res, last)
      else if last < mx then
        pure (lim, sortCorrections (res.set last v),
          if last + 1 < mx then last + 1 else last)
      else pure (lim, res, last)
  else pure (lim, res, last)

/-- `PartialMatch(n, s, target, max)`: generate raw candidates, then run
the selection loop over a buffer of `max` zero-valued slots. -/
def PartialMatch (n : Node) (s : List Char) (target : ℚ) (mx : Nat) :
    Option (List Correction) := do
  let f ← search_lev n s [] target
  let (_, res, _) ← f.foldlM (PartialMatchStep s target mx)
    (.fin 0, List.replicate mx Correction.zero, 0)
  pure res

/-! ## The flat-list mode `Correct` (main.go lines 16-46)

The backing word list is the embedded `data/words.txt`, split on newlines;
the file's bytes are not part of the sources, so the list is a parameter.
The Go map result is modelled as a last-write-wins association list
queried through `mapGet`. -/

/-- Write `k ↦ v` into the association-list model of the Go map. -/
def mapSet : List (List Char × ℚ) → List Char → ℚ → List (List Char × ℚ)
  | [], k, v => [(k, v)]
  | (k', v') :: rest, k, v =>
    if k' = k then (k, v) :: rest else (k', v') :: mapSet rest k v

/-- Read a key from the association-list model of the Go map. -/
def mapGet : List (List Char × ℚ) → List Char → Option ℚ
  | [], _ => none
  | (k', v') :: rest, k => if k' = k then some v' else mapGet rest k

/-- The loop body of `Correct`: compute the distance and, when it is
within the current limit, record the word and lower the limit to it. -/
def CorrectStep (word : List Char) (st : List (List Char × ℚ) × ℚ) (w : List Char) :
    Option (List (List Char × ℚ) × ℚ) := do
  let l ← levenshtein word w
  if (l : ℚ) ≤ st.2 then pure (mapSet st.1 w (l : ℚ), (l : ℚ)) else pure st

/-- `Correct(word, lim)`: scan the word list; each word within the current
`lim` is recorded and *`lim` is lowered to that word's distance*. -/
def Correct (dict : List (List Char)) (word : List Char) (lim : ℚ) :
    Option (List (List Char × ℚ)) := do
  let (m, _) ← dict.foldlM (CorrectStep word) ([], lim)
  pure m

/-! ## Totality of `levenshtein` and the `uint8` range bound -/

/-- Fold invariant for `Option`-valued `foldlM` loops. -/
theorem foldlM_inv {α σ : Type} (P : σ → Prop) (Q : α → Prop) (f : σ → α → Option σ)
    (l : List α) (hl : ∀ x ∈ l, Q x) (s : σ) (hs : P s)
    (hstep : ∀ s a, P s → Q a → ∃ s', f s a = some s' ∧ P s') :
    ∃ s', l.foldlM f s = some s' ∧ P s' := by
  induction l generalizing s with
  | nil => exact ⟨s, rfl, hs⟩
  | cons a t ih =>
    obtain ⟨s₁, hfa, hP₁⟩ := hstep s a hs (hl a (List.mem_cons_self a t))
    obtain ⟨s₂, hrest, hP₂⟩ := ih (fun x hx => hl x (List.mem_cons_of_mem a hx)) s₁ hP₁
    exact ⟨s₂, by simp [List.foldlM_cons, hfa, hrest], hP₂⟩

/-- Invariant carried through the inner loop of `levenshtein`. -/
def LevRowInv (a : List Char) (st : List Nat × Nat × Nat) : Prop :=
  st.1.length = a.length + 1 ∧ (∀ x ∈ st.1, x < 256) ∧ st.2.1 < 256 ∧ st.2.2 < 256

theorem levInner_some {a b : List Char} {i : Nat} (hi₁ : 1 ≤ i) (hi₂ : i ≤ b.length)
    {st : List Nat × Nat × Nat} (hst : LevRowInv a st) {j : Nat} (hj₁ : 1 ≤ j)
    (hj₂ : j ≤ a.length) :
    ∃ st', levInner a b i st j = some st' ∧ LevRowInv a st' := by
  obtain ⟨row, cur, bl⟩ := st
  obtain ⟨hlen, hmem, hcur, hbl⟩ := hst
  simp only at hlen hmem hcur hbl
  have hjr : j < row.length := by omega
  have hjr' : j - 1 < row.length := by omega
  have hja : j - 1 < a.length := by omega
  have hib : i - 1 < b.length := by omega
  obtain ⟨tr0, htr0⟩ : ∃ v, row.get? j = some v := ⟨_, List.get?_eq_get hjr⟩
  obtain ⟨tl, htl⟩ : ∃ v, row.get? (j-1) = some v := ⟨_, List.get?_eq_get hjr'⟩
  obtain ⟨ca, hca⟩ : ∃ v, a.get? (j-1) = some v := ⟨_, List.get?_eq_get hja⟩
  obtain ⟨cb, hcb⟩ : ∃ v, b.get? (i-1) = some v := ⟨_, List.get?_eq_get hib⟩
  have htl256 : tl < 256 := hmem _ (List.get?_mem htl)
  have htr256 : tr0 < 256 := hmem _ (List.get?_mem htr0)
  have hmemset : ∀ (v : Nat), v < 256 → ∀ x ∈ row.set j v, x < 256 := by
    intro v hv x hx
    rcases List.mem_or_eq_of_mem_set hx with h | h
    · exact hmem x h
    · omega
  simp only [levInner, htr0, htl, hca, hcb, Option.some_bind, Option.bind_eq_bind]
  by_cases hc : ca = cb
  · rw [if_pos hc]
    exact ⟨_, rfl, by simp [hlen], hmemset tl htl256, htl256, htl256⟩
  · rw [if_neg hc]
    by_cases hguard : j < a.length ∧ i < b.length ∧ j + 1 < a.length ∧ i + 1 < b.length
    · rw [if_pos hguard, List.get?_eq_get hguard.2.1, List.get?_eq_get hguard.1]
      simp only [Option.some_bind]
      refine ⟨_, rfl, by simp [hlen], ?_, ?_, ?_⟩
      · apply hmemset
        split
        exacts [htl256, Nat.mod_lt _ (by omega)]
      · split
        exacts [htl256, Nat.mod_lt _ (by omega)]
      · split
        exacts [htl256, Nat.mod_lt _ (by omega)]
    · rw [if_neg hguard]
      exact ⟨_, rfl, by simp [hlen], hmemset _ (Nat.mod_lt _ (by omega)),
        Nat.mod_lt _ (by omega), Nat.mod_lt _ (by omega)⟩

/-- Invariant carried through the outer loop of `levenshtein`. -/
def LevOuterInv (a : List Char) (st : List Nat × Nat) : Prop :=
  st.1.length = a.length + 1 ∧ (∀ x ∈ st.1, x < 256) ∧ st.2 < 256

theorem levOuter_some {a b : List Char} {st : List Nat × Nat} (hst : LevOuterInv a st)
    {i : Nat} (hi₁ : 1 ≤ i) (hi₂ : i ≤ b.length) :
    ∃ st', levOuter a b st i = some st' ∧ LevOuterInv a st' := by
  obtain ⟨row, result⟩ := st
  obtain ⟨hlen, hmem, hres⟩ := hst
  simp only at hlen hmem hres
  have hmod : i % 256 < 256 := Nat.mod_lt _ (by omega)
  have hinv0 : LevRowInv a (row.set 0 (i % 256), 0, i % 256) := by
    refine ⟨by simp [hlen], ?_, by simp, by simpa using hmod⟩
    intro x hx
    rcases List.mem_or_eq_of_mem_set hx with h | h
    · exact hmem x h
    · omega
  obtain ⟨st', hfold, hinv'⟩ := foldlM_inv (LevRowInv a) (fun j => 1 ≤ j ∧ j ≤ a.length)
    (levInner a b i) (List.range' 1 a.length)
    (by intro x hx; rw [List.mem_range'_1] at hx; omega)
    _ hinv0
    (fun s j hP hQ => levInner_some hi₁ hi₂ hP hQ.1 hQ.2)
  obtain ⟨row', cur', bl'⟩ := st'
  refine ⟨(row', cur'), ?_, hinv'.1, hinv'.2.1, hinv'.2.2.1⟩
  unfold levOuter
  simp [hfold]

/-- `levenshtein` never fails, and outside its early returns the result is a
`uint8` value. -/
theorem levenshtein_some (a b : List Char) :
    ∃ n, levenshtein a b = some n ∧ (a ≠ [] → b ≠ [] → a ≠ b → n < 256) := by
  unfold levenshtein
  by_cases ha : a = []
  · exact ⟨b.length, by simp [ha], by intro h; exact absurd ha h⟩
  · by_cases hb : b = []
    · exact ⟨a.length, by simp [ha, hb], by intro _ h; exact absurd hb h⟩
    · by_cases hab : a = b
      · exact ⟨0, by simp [ha, hb, hab], by intro _ _ h; exact absurd hab h⟩
      · have hinv : LevOuterInv a ((List.range (a.length + 1)).map (· % 256), 0) := by
          refine ⟨by simp, ?_, by omega⟩
          intro x hx
          obtain ⟨y, _, rfl⟩ := List.mem_map.1 hx
          exact Nat.mod_lt _ (by omega)
        obtain ⟨st', hfold, hinv'⟩ := foldlM_inv (LevOuterInv a) (fun i => 1 ≤ i ∧ i ≤ b.length)
          (levOuter a b) (List.range' 1 b.length)
          (by intro x hx; rw [List.mem_range'_1] at hx; omega)
          _ hinv
          (fun s i hP hQ => levOuter_some hP hQ.1 hQ.2)
        refine ⟨st'.2, ?_, fun _ _ _ => hinv'.2.2⟩
        simp [ha, hb, hab, hfold]

/-! ## Totality of `levenshtein_with_operations` -/

/-- An ops cell can only read 4 where the transposition guard held, which
forces both indices at least 2. -/
theorem Op_eq_four {a b : List Char} {i j : Nat} (h : Op a b i j = 4) : 2 ≤ i ∧ 2 ≤ j := by
  simp only [Op] at h
  split_ifs at h with h1 h2 h3 h4 h5
  any_goals omega
  exact ⟨h5.1.1, h5.1.2.1⟩

/-- The `total` slot of `levenshtein_with_operations` (the value of
`results[0]` on each control path). -/
def lwoTotal (a b : List Char) : Nat :=
  if a = [] ∨ b = [] then Nat.max a.length b.length
  else if a = b then 0
  else M a b a.length b.length

/-- The backtracking loop terminates within its index sum and never reads
out of bounds. -/
theorem backtrack_some (a b : List Char) :
    ∀ (fuel : Nat) (la lb : Int) (r : Nat × Nat × Nat), 0 ≤ la → la ≤ a.length →
      0 ≤ lb → lb ≤ b.length → la + lb < fuel →
      ∃ o, backtrack a b fuel la lb r = some o := by
  intro fuel
  induction fuel with
  | zero => intro la lb r h₁ _ h₃ _ h₅; omega
  | succ fuel ih =>
    intro la lb r h₁ h₂ h₃ h₄ h₅
    obtain ⟨r1, r2, r3⟩ := r
    unfold backtrack
    by_cases hloop : ¬(la > -1 ∨ lb > -1)
    · exact ⟨_, by rw [if_pos hloop]⟩
    · rw [if_neg hloop]
      simp only
      by_cases hbrk : (if lb = 0 then (0:Int) else 1) = 0 ∧ (if la = 0 then (0:Int) else 1) = 0
      · exact ⟨_, by rw [if_pos hbrk]⟩
      · rw [if_neg hbrk]
        have hoob : ¬(la < 0 ∨ lb < 0 ∨ la > a.length ∨ lb > b.length) := by omega
        rw [if_neg hoob]
        have hdec : (la = 0 → lb ≠ 0) ∧ (lb = 0 → la ≠ 0) := by
          constructor <;> intro h h' <;> simp [h, h'] at hbrk
        by_cases hop1 : Op a b la.toNat lb.toNat = 1
        · rw [if_pos hop1]
          apply ih <;> split_ifs <;> omega
        · rw [if_neg hop1]
          by_cases hop2 : Op a b la.toNat lb.toNat = 2
          · rw [if_pos hop2]
            apply ih <;> split_ifs <;> omega
          · rw [if_neg hop2]
            by_cases hop3 : Op a b la.toNat lb.toNat = 3
            · rw [if_pos hop3]
              apply ih <;> split_ifs <;> omega
            · rw [if_neg hop3]
              by_cases hop4 : Op a b la.toNat lb.toNat = 4
              · rw [if_pos hop4]
                obtain ⟨hA2, hB2⟩ := Op_eq_four hop4
                apply ih <;> split_ifs <;> omega
              · rw [if_neg hop4]
                apply ih <;> split_ifs <;> omega

/-- `levenshtein_with_operations` never fails, and the `total` slot of its
result is `lwoTotal`. -/
theorem lwo_some (a b : List Char) :
    ∃ r, levenshtein_with_operations a b = some r ∧ r.total = lwoTotal a b := by
  unfold levenshtein_with_operations lwoTotal
  by_cases h0 : a = [] ∨ b = []
  · refine ⟨⟨Nat.max a.length b.length, 0, 0, 0⟩, ?_, ?_⟩ <;> simp [h0]
  · rw [if_neg h0, if_neg h0]
    by_cases hab : a = b
    · refine ⟨⟨0, 0, 0, 0⟩, ?_, ?_⟩ <;> simp [hab]
    · rw [if_neg hab, if_neg hab]
      obtain ⟨⟨o1, o2, o3⟩, ho⟩ := backtrack_some a b (a.length + b.length + 1)
        (a.length : Int) (b.length : Int) (0, 0, 0) (by omega) (by omega) (by omega)
        (by omega) (by omega)
      refine ⟨⟨M a b a.length b.length, o1, o2, o3⟩, ?_, rfl⟩
      rw [ho]
      rfl

/-! ## The total of `levenshtein_with_operations` is the minimum-cost
alignment

`Aln a b n` holds when some alignment of `a` and `b` under
single-character insertion, deletion, substitution and adjacent-character
transposition, each of cost 1, has total cost `n`; this is the literal
reading of the spec's edit model.  The development shows `lwoTotal` is the
least such `n`. -/

/-- Cell-fuel irrelevance for the matrix recurrence. -/
theorem Mf_congr (a b : List Char) :
    ∀ (s fuel fuel' : Nat) (i j : Nat), i + j = s → i + j ≤ fuel → i + j ≤ fuel' →
      Mf a b fuel i j = Mf a b fuel' i j := by
  intro s
  induction s using Nat.strong_induction_on with
  | _ s ih =>
    intro fuel fuel' i j hs h1 h2
    match i, j with
    | 0, j => simp [Mf]
    | i+1, 0 => simp [Mf]
    | i+1, j+1 =>
      match fuel, fuel' with
      | 0, _ => omega
      | _+1, 0 => omega
      | f+1, f'+1 =>
        simp only [Mf]
        rw [ih (i+1+j) (by omega) f f' (i+1) j rfl (by omega) (by omega),
          ih (i+(j+1)) (by omega) f f' i (j+1) rfl (by omega) (by omega),
          ih (i+j) (by omega) f f' i j rfl (by omega) (by omega),
          ih ((i-1)+(j-1)) (by omega) f f' (i-1) (j-1) rfl (by omega) (by omega)]

theorem M_zero_left (a b : List Char) (j : Nat) : M a b 0 j = j := by simp [M, Mf]

theorem M_zero_right (a b : List Char) (i : Nat) : M a b (i+1) 0 = i+1 := by simp [M, Mf]

theorem M_right_zero (a b : List Char) (i : Nat) : M a b i 0 = i := by
  cases i with
  | zero => exact M_zero_left a b 0
  | succ k => exact M_zero_right a b k

/-- The fill-loop recurrence, phrased cell to cell. -/
theorem M_succ (a b : List Char) (i j : Nat) :
    M a b (i+1) (j+1) =
      (let cost := lwoCost a b (i+1) (j+1)
       let base := Nat.min (M a b (i+1) j + 1) (Nat.min (M a b i (j+1) + 1) (M a b i j + cost))
       if lwoSwapOk a b (i+1) (j+1) then Nat.min base (M a b (i-1) (j-1) + cost) else base) := by
  show Mf a b (i+1+(j+1)) (i+1) (j+1) = _
  have : i+1+(j+1) = (i+j+1)+1 := by omega
  rw [this]
  simp only [Mf, M]
  rw [Mf_congr a b (i+1+j) (i+j+1) (i+1+j) (i+1) j rfl (by omega) (by omega),
    Mf_congr a b (i+(j+1)) (i+j+1) (i+(j+1)) i (j+1) rfl (by omega) (by omega),
    Mf_congr a b (i+j) (i+j+1) (i+j) i j rfl (by omega) (by omega),
    Mf_congr a b ((i-1)+(j-1)) (i+j+1) ((i-1)+(j-1)) (i-1) (j-1) rfl (by omega) (by omega)]

/-- An alignment of two strings under the four edit operations of
`levenshtein_with_operations`, reading both strings left to right;
`Aln a b n` states that one such alignment has total cost `n`. -/
inductive Aln : List Char → List Char → Nat → Prop where
  | nil : Aln [] [] 0
  | mtch {xs ys n} (c : Char) : Aln xs ys n → Aln (c :: xs) (c :: ys) n
  | subst {xs ys n} (c d : Char) : Aln xs ys n → Aln (c :: xs) (d :: ys) (n + 1)
  | del {xs ys n} (c : Char) : Aln xs ys n → Aln (c :: xs) ys (n + 1)
  | ins {xs ys n} (d : Char) : Aln xs ys n → Aln xs (d :: ys) (n + 1)
  | swap {xs ys n} (c d : Char) : Aln xs ys n → Aln (c :: d :: xs) (d :: c :: ys) (n + 1)

theorem aln_nil_left : ∀ ys : List Char, Aln [] ys ys.length
  | [] => .nil
  | y :: ys => .ins y (aln_nil_left ys)

theorem aln_nil_right : ∀ xs : List Char, Aln xs [] xs.length
  | [] => .nil
  | x :: xs => .del x (aln_nil_right xs)

theorem aln_refl : ∀ xs : List Char, Aln xs xs 0
  | [] => .nil
  | x :: xs => .mtch x (aln_refl xs)

theorem aln_nil_left_le {ys : List Char} {n : Nat} (h : Aln [] ys n) : ys.length ≤ n := by
  generalize hx : ([] : List Char) = xs at h
  induction h with
  | nil => simp
  | mtch c h ih => exact absurd hx (by simp)
  | subst c d h ih => exact absurd hx (by simp)
  | del c h ih => exact absurd hx (by simp)
  | ins d h ih => simpa using Nat.succ_le_succ (ih hx)
  | swap c d h ih => exact absurd hx (by simp)

theorem aln_nil_right_le {xs : List Char} {n : Nat} (h : Aln xs [] n) : xs.length ≤ n := by
  generalize hy : ([] : List Char) = ys at h
  induction h with
  | nil => simp
  | mtch c h ih => exact absurd hy (by simp)
  | subst c d h ih => exact absurd hy (by simp)
  | del c h ih => simpa using Nat.succ_le_succ (ih hy)
  | ins d h ih => exact absurd hy (by simp)
  | swap c d h ih => exact absurd hy (by simp)

theorem aln_snoc_mtch {xs ys : List Char} {n : Nat} (c : Char) (h : Aln xs ys n) :
    Aln (xs ++ [c]) (ys ++ [c]) n := by
  induction h with
  | nil => exact .mtch c .nil
  | mtch c' _ ih => exact .mtch c' ih
  | subst c' d' _ ih => exact .subst c' d' ih
  | del c' _ ih => exact .del c' ih
  | ins d' _ ih => exact .ins d' ih
  | swap c' d' _ ih => exact .swap c' d' ih

theorem aln_snoc_subst {xs ys : List Char} {n : Nat} (c d : Char) (h : Aln xs ys n) :
    Aln (xs ++ [c]) (ys ++ [d]) (n + 1) := by
  induction h with
  | nil => exact .subst c d .nil
  | mtch c' _ ih => exact .mtch c' ih
  | subst c' d' _ ih => exact .subst c' d' ih
  | del c' _ ih => exact .del c' ih
  | ins d' _ ih => exact .ins d' ih
  | swap c' d' _ ih => exact .swap c' d' ih

theorem aln_snoc_del {xs ys : List Char} {n : Nat} (c : Char) (h : Aln xs ys n) :
    Aln (xs ++ [c]) ys (n + 1) := by
  induction h with
  | nil => exact .del c .nil
  | mtch c' _ ih => exact .mtch c' ih
  | subst c' d' _ ih => exact .subst c' d' ih
  | del c' _ ih => exact .del c' ih
  | ins d' _ ih => exact .ins d' ih
  | swap c' d' _ ih => exact .swap c' d' ih

theorem aln_snoc_ins {xs ys : List Char} {n : Nat} (d : Char) (h : Aln xs ys n) :
    Aln xs (ys ++ [d]) (n + 1) := by
  induction h with
  | nil => exact .ins d .nil
  | mtch c' _ ih => exact .mtch c' ih
  | subst c' d' _ ih => exact .subst c' d' ih
  | del c' _ ih => exact .del c' ih
  | ins d' _ ih => exact .ins d' ih
  | swap c' d' _ ih => exact .swap c' d' ih

theorem aln_snoc_swap {xs ys : List Char} {n : Nat} (c d : Char) (h : Aln xs ys n) :
    Aln (xs ++ [c, d]) (ys ++ [d, c]) (n + 1) := by
  induction h with
  | nil => exact .swap c d .nil
  | mtch c' _ ih => exact .mtch c' ih
  | subst c' d' _ ih => exact .subst c' d' ih
  | del c' _ ih => exact .del c' ih
  | ins d' _ ih => exact .ins d' ih
  | swap c' d' _ ih => exact .swap c' d' ih

/-- Alignments are stable under jointly reversing both strings. -/
theorem aln_reverse {xs ys : List Char} {n : Nat} (h : Aln xs ys n) :
    Aln xs.reverse ys.reverse n := by
  induction h with
  | nil => exact .nil
  | mtch c _ ih => simpa using aln_snoc_mtch c ih
  | subst c d _ ih => simpa using aln_snoc_subst c d ih
  | del c _ ih => simpa using aln_snoc_del c ih
  | ins d _ ih => simpa using aln_snoc_ins d ih
  | swap c d _ ih =>
    have := aln_snoc_swap d c ih
    simpa using this

theorem aln_reverse_iff {xs ys : List Char} {n : Nat} :
    Aln xs.reverse ys.reverse n ↔ Aln xs ys n := by
  constructor
  · intro h
    simpa using aln_reverse h
  · exact aln_reverse

theorem charAt_eq {l : List Char} {i : Nat} (h : i < l.length) :
    charAt l i = l.get ⟨i, h⟩ := by
  simp [charAt, List.getD_eq_getElem?_getD, List.getElem?_eq_getElem h]

theorem rev_take_succ {l : List Char} {i : Nat} (h : i < l.length) :
    (l.take (i+1)).reverse = charAt l i :: (l.take i).reverse := by
  rw [List.take_succ, List.getElem?_eq_getElem h]
  simp [charAt_eq h, List.get_eq_getElem]

theorem rev_take_cons {l : List Char} {i : Nat} (hi : i ≤ l.length) {c : Char}
    {rest : List Char} (he : (l.take i).reverse = c :: rest) :
    1 ≤ i ∧ c = charAt l (i-1) ∧ rest = (l.take (i-1)).reverse := by
  cases i with
  | zero => simp at he
  | succ i' =>
    rw [rev_take_succ (by omega)] at he
    exact ⟨by omega, (List.cons.injEq _ _ _ _ ▸ he).1.symm, (List.cons.injEq _ _ _ _ ▸ he).2.symm⟩

theorem lwoCost_le_one (a b : List Char) (i j : Nat) : lwoCost a b i j ≤ 1 := by
  unfold lwoCost
  split <;> omega

/-- The let-free cell recurrence. -/
theorem M_rec (a b : List Char) (i j : Nat) :
    M a b (i+1) (j+1) =
      if lwoSwapOk a b (i+1) (j+1) then
        Nat.min (Nat.min (M a b (i+1) j + 1)
            (Nat.min (M a b i (j+1) + 1) (M a b i j + lwoCost a b (i+1) (j+1))))
          (M a b (i-1) (j-1) + lwoCost a b (i+1) (j+1))
      else
        Nat.min (M a b (i+1) j + 1)
          (Nat.min (M a b i (j+1) + 1) (M a b i j + lwoCost a b (i+1) (j+1))) := by
  rw [M_succ]

theorem M_le_del {a b : List Char} {i j : Nat} (hi : 1 ≤ i) (hj : 1 ≤ j) :
    M a b i j ≤ M a b (i-1) j + 1 := by
  obtain ⟨i', rfl⟩ : ∃ i', i = i' + 1 := ⟨i - 1, by omega⟩
  obtain ⟨j', rfl⟩ : ∃ j', j = j' + 1 := ⟨j - 1, by omega⟩
  rw [M_rec]
  simp only [Nat.add_sub_cancel]
  have hb : Nat.min (M a b (i'+1) j' + 1)
      (Nat.min (M a b i' (j'+1) + 1) (M a b i' j' + lwoCost a b (i'+1) (j'+1))) ≤
      M a b i' (j'+1) + 1 :=
    le_trans (Nat.min_le_right _ _) (Nat.min_le_left _ _)
  split
  · exact le_trans (Nat.min_le_left _ _) hb
  · exact hb

theorem M_le_ins {a b : List Char} {i j : Nat} (hi : 1 ≤ i) (hj : 1 ≤ j) :
    M a b i j ≤ M a b i (j-1) + 1 := by
  obtain ⟨i', rfl⟩ : ∃ i', i = i' + 1 := ⟨i - 1, by omega⟩
  obtain ⟨j', rfl⟩ : ∃ j', j = j' + 1 := ⟨j - 1, by omega⟩
  rw [M_rec]
  simp only [Nat.add_sub_cancel]
  have hb : Nat.min (M a b (i'+1) j' + 1)
      (Nat.min (M a b i' (j'+1) + 1) (M a b i' j' + lwoCost a b (i'+1) (j'+1))) ≤
      M a b (i'+1) j' + 1 := Nat.min_le_left _ _
  split
  · exact le_trans (Nat.min_le_left _ _) hb
  · exact hb

theorem M_le_sub {a b : List Char} {i j : Nat} (hi : 1 ≤ i) (hj : 1 ≤ j) :
    M a b i j ≤ M a b (i-1) (j-1) + lwoCost a b i j := by
  obtain ⟨i', rfl⟩ : ∃ i', i = i' + 1 := ⟨i - 1, by omega⟩
  obtain ⟨j', rfl⟩ : ∃ j', j = j' + 1 := ⟨j - 1, by omega⟩
  rw [M_rec]
  simp only [Nat.add_sub_cancel]
  have hb : Nat.min (M a b (i'+1) j' + 1)
      (Nat.min (M a b i' (j'+1) + 1) (M a b i' j' + lwoCost a b (i'+1) (j'+1))) ≤
      M a b i' j' + lwoCost a b (i'+1) (j'+1) :=
    le_trans (Nat.min_le_right _ _) (Nat.min_le_right _ _)
  split
  · exact le_trans (Nat.min_le_left _ _) hb
  · exact hb

theorem M_le_swap {a b : List Char} {i j : Nat} (hsw : lwoSwapOk a b i j) :
    M a b i j ≤ M a b (i-2) (j-2) + lwoCost a b i j := by
  have h2i : 2 ≤ i := hsw.1
  have h2j : 2 ≤ j := hsw.2.1
  obtain ⟨i', rfl⟩ : ∃ i', i = i' + 1 := ⟨i - 1, by omega⟩
  obtain ⟨j', rfl⟩ : ∃ j', j = j' + 1 := ⟨j - 1, by omega⟩
  rw [M_rec, if_pos hsw]
  have e1 : i' + 1 - 2 = i' - 1 := by omega
  have e2 : j' + 1 - 2 = j' - 1 := by omega
  rw [e1, e2]
  exact Nat.min_le_right _ _

/-- Every matrix cell is realised by some alignment of the corresponding
reversed prefixes. -/
theorem aln_achieve (a b : List Char) :
    ∀ (s i j : Nat), i + j = s → i ≤ a.length → j ≤ b.length →
      Aln ((a.take i).reverse) ((b.take j).reverse) (M a b i j) := by
  intro s
  induction s using Nat.strong_induction_on with
  | _ s ih =>
    intro i j hs hi hj
    match i, j with
    | 0, 0 => simpa [M_zero_left] using Aln.nil
    | 0, j+1 =>
      rw [M_zero_left]
      have h := aln_nil_left ((b.take (j+1)).reverse)
      simpa [List.length_take, Nat.min_eq_left hj] using h
    | i+1, 0 =>
      rw [M_zero_right]
      have h := aln_nil_right ((a.take (i+1)).reverse)
      simpa [List.length_take, Nat.min_eq_left hi] using h
    | i+1, j+1 =>
      have hia : i < a.length := by omega
      have hjb : j < b.length := by omega
      have hInsA : Aln ((a.take (i+1)).reverse) ((b.take (j+1)).reverse) (M a b (i+1) j + 1) := by
        rw [rev_take_succ hjb]
        exact .ins (charAt b j) (ih (i+1+j) (by omega) (i+1) j rfl (by omega) (by omega))
      have hDelA : Aln ((a.take (i+1)).reverse) ((b.take (j+1)).reverse) (M a b i (j+1) + 1) := by
        rw [rev_take_succ hia]
        exact .del (charAt a i) (ih (i+(j+1)) (by omega) i (j+1) rfl (by omega) (by omega))
      have hSubA : Aln ((a.take (i+1)).reverse) ((b.take (j+1)).reverse)
          (M a b i j + lwoCost a b (i+1) (j+1)) := by
        rw [rev_take_succ hia, rev_take_succ hjb]
        have h0 := ih (i+j) (by omega) i j rfl (by omega) (by omega)
        unfold lwoCost
        simp only [Nat.add_sub_cancel]
        split
        · next hc =>
          rw [← hc]
          exact .mtch (charAt a i) h0
        · exact .subst (charAt a i) (charAt b j) h0
      have hBase : ∀ v, v = Nat.min (M a b (i+1) j + 1)
          (Nat.min (M a b i (j+1) + 1) (M a b i j + lwoCost a b (i+1) (j+1))) →
          Aln ((a.take (i+1)).reverse) ((b.take (j+1)).reverse) v := by
        intro v hv
        have h3 : v = M a b (i+1) j + 1 ∨ v = M a b i (j+1) + 1 ∨
            v = M a b i j + lwoCost a b (i+1) (j+1) := by
          have hA : Nat.min (M a b (i+1) j + 1)
              (Nat.min (M a b i (j+1) + 1) (M a b i j + lwoCost a b (i+1) (j+1))) =
              M a b (i+1) j + 1 ∨
              Nat.min (M a b (i+1) j + 1)
              (Nat.min (M a b i (j+1) + 1) (M a b i j + lwoCost a b (i+1) (j+1))) =
              Nat.min (M a b i (j+1) + 1) (M a b i j + lwoCost a b (i+1) (j+1)) :=
            min_choice _ _
          have hB : Nat.min (M a b i (j+1) + 1) (M a b i j + lwoCost a b (i+1) (j+1)) =
              M a b i (j+1) + 1 ∨
              Nat.min (M a b i (j+1) + 1) (M a b i j + lwoCost a b (i+1) (j+1)) =
              M a b i j + lwoCost a b (i+1) (j+1) := min_choice _ _
          rcases hA with h | h <;> rcases hB with h' | h' <;> omega
        rcases h3 with h | h | h <;> rw [h]
        · exact hInsA
        · exact hDelA
        · exact hSubA
      rw [M_rec]
      by_cases hsw : lwoSwapOk a b (i+1) (j+1)
      · rw [if_pos hsw]
        have hc1 : charAt a (i-1) = charAt b j := by
          have := hsw.2.2.1
          simpa using this
        have hc2 : charAt a i = charAt b (j-1) := by
          have := hsw.2.2.2
          simpa using this
        have h2i : 1 ≤ i := by
          have := hsw.1
          omega
        have h2j : 1 ≤ j := by
          have := hsw.2.1
          omega
        by_cases hcost : lwoCost a b (i+1) (j+1) = 0
        · -- all four characters coincide; the transposition candidate cannot
          -- beat the substitution chain, so the minimum is the base minimum
          have hch : charAt a i = charAt b j := by
            unfold lwoCost at hcost
            simp only [Nat.add_sub_cancel] at hcost
            by_contra hne
            simp [hne] at hcost
          have hcost' : lwoCost a b i j = 0 := by
            unfold lwoCost
            have : charAt a (i-1) = charAt b (j-1) := by
              rw [hc1, ← hch, hc2]
            simp [this]
          have hsubchain : M a b i j ≤ M a b (i-1) (j-1) := by
            have := M_le_sub (a := a) (b := b) h2i h2j
            omega
          have hble : M a b i j + lwoCost a b (i+1) (j+1) ≤
              M a b (i-1) (j-1) + lwoCost a b (i+1) (j+1) := by omega
          apply hBase
          exact Nat.min_eq_left (le_trans (le_trans (Nat.min_le_right _ _)
            (Nat.min_le_right _ _)) hble)
        · -- cost 1: the minimum is either the base minimum or the
          -- transposition candidate, realised by a swap step
          have hSwapA : Aln ((a.take (i+1)).reverse) ((b.take (j+1)).reverse)
              (M a b (i-1) (j-1) + lwoCost a b (i+1) (j+1)) := by
            have hcost1 : lwoCost a b (i+1) (j+1) = 1 := by
              have := lwoCost_le_one a b (i+1) (j+1)
              omega
            rw [hcost1, rev_take_succ hia, rev_take_succ hjb]
            have e1 : (a.take i).reverse = charAt a (i-1) :: (a.take (i-1)).reverse := by
              have : i - 1 + 1 = i := by omega
              rw [← this]
              exact rev_take_succ (by omega)
            have e2 : (b.take j).reverse = charAt b (j-1) :: (b.take (j-1)).reverse := by
              have : j - 1 + 1 = j := by omega
              rw [← this]
              exact rev_take_succ (by omega)
            rw [e1, e2, ← hc1, ← hc2]
            exact .swap (charAt a i) (charAt a (i-1))
              (ih ((i-1)+(j-1)) (by omega) (i-1) (j-1) rfl (by omega) (by omega))
          have h2 : Nat.min (Nat.min (M a b (i+1) j + 1)
              (Nat.min (M a b i (j+1) + 1) (M a b i j + lwoCost a b (i+1) (j+1))))
              (M a b (i-1) (j-1) + lwoCost a b (i+1) (j+1)) =
              Nat.min (M a b (i+1) j + 1)
                (Nat.min (M a b i (j+1) + 1) (M a b i j + lwoCost a b (i+1) (j+1))) ∨
              Nat.min (Nat.min (M a b (i+1) j + 1)
              (Nat.min (M a b i (j+1) + 1) (M a b i j + lwoCost a b (i+1) (j+1))))
              (M a b (i-1) (j-1) + lwoCost a b (i+1) (j+1)) =
              M a b (i-1) (j-1) + lwoCost a b (i+1) (j+1) := min_choice _ _
          rcases h2 with h | h <;> rw [h]
          · exact hBase _ rfl
          · exact hSwapA
      · rw [if_neg hsw]
        exact hBase _ rfl

/-- Every alignment of reversed prefixes costs at least the matrix cell. -/
theorem aln_lower (a b : List Char) {xs ys : List Char} {n : Nat} (h : Aln xs ys n) :
    ∀ i j, i ≤ a.length → j ≤ b.length → xs = (a.take i).reverse →
      ys = (b.take j).reverse → M a b i j ≤ n := by
  induction h with
  | nil =>
    intro i j hi hj hx hy
    have hi0 : i = 0 := by
      have := congrArg List.length hx
      simp [List.length_take] at this
      omega
    have hj0 : j = 0 := by
      have := congrArg List.length hy
      simp [List.length_take] at this
      omega
    subst hi0; subst hj0
    rw [M_zero_left]
  | mtch c hprev ih =>
    intro i j hi hj hx hy
    obtain ⟨hi1, hc, hrest⟩ := rev_take_cons hi hx.symm
    obtain ⟨hj1, hc', hrest'⟩ := rev_take_cons hj hy.symm
    have hcost : lwoCost a b i j = 0 := by
      unfold lwoCost
      rw [← hc, ← hc']
      simp
    have hstep := M_le_sub (a := a) (b := b) hi1 hj1
    have hih := ih (i-1) (j-1) (by omega) (by omega) hrest hrest'
    omega
  | subst c d hprev ih =>
    intro i j hi hj hx hy
    obtain ⟨hi1, _, hrest⟩ := rev_take_cons hi hx.symm
    obtain ⟨hj1, _, hrest'⟩ := rev_take_cons hj hy.symm
    have hstep := M_le_sub (a := a) (b := b) hi1 hj1
    have hcost := lwoCost_le_one a b i j
    have hih := ih (i-1) (j-1) (by omega) (by omega) hrest hrest'
    omega
  | del c hprev ih =>
    intro i j hi hj hx hy
    obtain ⟨hi1, _, hrest⟩ := rev_take_cons hi hx.symm
    by_cases hj0 : j = 0
    · subst hj0
      rw [M_right_zero]
      have hih := ih (i-1) 0 (by omega) (by omega) hrest hy
      rw [M_right_zero] at hih
      omega
    · have hstep := M_le_del (a := a) (b := b) (i := i) (j := j) hi1 (by omega)
      have hih := ih (i-1) j (by omega) hj hrest hy
      omega
  | ins d hprev ih =>
    intro i j hi hj hx hy
    obtain ⟨hj1, _, hrest'⟩ := rev_take_cons hj hy.symm
    by_cases hi0 : i = 0
    · subst hi0
      rw [M_zero_left]
      have hih := ih 0 (j-1) (by omega) (by omega) hx hrest'
      rw [M_zero_left] at hih
      omega
    · have hstep := M_le_ins (a := a) (b := b) (i := i) (j := j) (by omega) hj1
      have hih := ih i (j-1) hi (by omega) hx hrest'
      omega
  | swap c d hprev ih =>
    intro i j hi hj hx hy
    obtain ⟨hi1, hc, hrest⟩ := rev_take_cons hi hx.symm
    obtain ⟨hi2', hd, hrest2⟩ := rev_take_cons (l := a) (i := i - 1) (by omega) hrest.symm
    obtain ⟨hj1, hd', hrest'⟩ := rev_take_cons hj hy.symm
    obtain ⟨hj2', hc', hrest2'⟩ := rev_take_cons (l := b) (i := j - 1) (by omega) hrest'.symm
    have hi2 : 2 ≤ i := by omega
    have hj2 : 2 ≤ j := by omega
    have e1 : i - 1 - 1 = i - 2 := by omega
    have e2 : j - 1 - 1 = j - 2 := by omega
    have hsw : lwoSwapOk a b i j := by
      refine ⟨hi2, hj2, ?_, ?_⟩
      · rw [e1] at hd
        rw [← hd, ← hd']
      · rw [e2] at hc'
        rw [← hc, ← hc']
    have hstep := M_le_swap hsw
    have hcost := lwoCost_le_one a b i j
    rw [e1] at hrest2
    rw [e2] at hrest2'
    have hih := ih (i-2) (j-2) (by omega) (by omega) hrest2 hrest2'
    omega

/-- `lwoTotal` is the minimum alignment cost. -/
theorem lwoTotal_least (a b : List Char) :
    Aln a b (lwoTotal a b) ∧ ∀ n, Aln a b n → lwoTotal a b ≤ n := by
  unfold lwoTotal
  by_cases h0 : a = [] ∨ b = []
  · rw [if_pos h0]
    rcases h0 with rfl | rfl
    · simp only [List.length_nil, Nat.max_eq_right (Nat.zero_le _)]
      exact ⟨aln_nil_left b, fun n hn => aln_nil_left_le hn⟩
    · simp only [List.length_nil, Nat.max_eq_left (Nat.zero_le _)]
      exact ⟨aln_nil_right a, fun n hn => aln_nil_right_le hn⟩
  · rw [if_neg h0]
    by_cases hab : a = b
    · rw [if_pos hab]
      exact ⟨hab ▸ aln_refl a, fun n _ => Nat.zero_le n⟩
    · rw [if_neg hab]
      constructor
      · have h1 := aln_achieve a b (a.length + b.length) a.length b.length rfl le_rfl le_rfl
        rw [List.take_length, List.take_length] at h1
        exact aln_reverse_iff.1 h1
      · intro n hn
        exact aln_lower a b (aln_reverse_iff.2 hn) a.length b.length le_rfl le_rfl
          (by rw [List.take_length]) (by rw [List.take_length])

/-! ## Totality of the scoring path -/

theorem keyLenLoop_some (original : List Char) :
    ∀ (w : List Char) (i acc : Nat), ∃ n, keyLenLoop original i acc w = some n := by
  intro w
  induction w with
  | nil => intro i acc; exact ⟨acc, rfl⟩
  | cons v rest ih =>
    intro i acc
    unfold keyLenLoop
    by_cases hbrk : (original.length : Int) - 1 < (i : Int)
    · exact ⟨acc, by rw [if_pos hbrk]⟩
    · rw [if_neg hbrk]
      have hlt : i < original.length := by omega
      rw [List.get?_eq_get hlt]
      exact ih (i+1) _

theorem prefixLength_go_some (o : List Char) :
    ∀ (t : List Char) (i n : Nat), ∃ m, PrefixLength.go o i n t = some m := by
  intro t
  induction t with
  | nil => intro i n; exact ⟨n, rfl⟩
  | cons v rest ih =>
    intro i n
    unfold PrefixLength.go
    by_cases hbrk : (o.length : Int) - 1 < (i : Int)
    · exact ⟨n, by rw [if_pos hbrk]⟩
    · rw [if_neg hbrk]
      have hlt : i < o.length := by omega
      rw [List.get?_eq_get hlt]
      by_cases hv : v = o.get ⟨i, hlt⟩
      · simpa [hv] using ih (i+1) ((n+1) % 256)
      · refine ⟨n, ?_⟩
        dsimp only
        rw [if_neg hv]

theorem PrefixLength_some (o t : List Char) : ∃ n, PrefixLength o t = some n :=
  prefixLength_go_some o t 0 0

theorem SharedCharacters_some (original target : List Char) :
    ∃ n, SharedCharacters original target = some n := by
  unfold SharedCharacters
  obtain ⟨n, hn, -⟩ := foldlM_inv (σ := Nat) (fun _ => True)
    (fun i => i < Nat.min original.length target.length)
    (fun acc i => do
      let c₁ ← original.get? i
      let c₂ ← target.get? i
      pure (if c₁ = c₂ then acc + 1 else acc))
    (List.range (Nat.min original.length target.length))
    (fun x hx => List.mem_range.1 hx) 0 trivial
    (fun acc i _ hi => by
      have h1 : i < original.length := lt_of_lt_of_le hi (Nat.min_le_left _ _)
      have h2 : i < target.length := lt_of_lt_of_le hi (Nat.min_le_right _ _)
      dsimp only
      rw [List.get?_eq_get h1, List.get?_eq_get h2]
      exact ⟨_, rfl, trivial⟩)
  exact ⟨n, hn⟩

/-- `weigh` never fails and only completes the derived fields: the word,
distance record and frequency of the candidate are unchanged. -/
theorem weigh_some (c : Correction) (s : List Char) :
    ∃ c', weigh c s = some c' ∧ c'.word = c.word ∧ c'.ld = c.ld ∧
      c'.frequency = c.frequency := by
  unfold weigh
  by_cases hex : c.word = s
  · exact ⟨{ c with Weight := .inf }, by rw [if_pos hex], rfl, rfl, rfl⟩
  · rw [if_neg hex]
    obtain ⟨kl, hkl⟩ := keyLenLoop_some s c.word 0 0
    obtain ⟨pre, hpre⟩ := PrefixLength_some c.word s
    obtain ⟨suf, hsuf⟩ := PrefixLength_some (reverse c.word) (reverse s)
    obtain ⟨sh, hsh⟩ := SharedCharacters_some s c.word
    rw [hkl, hpre, hsuf, hsh]
    exact ⟨_, rfl, rfl, rfl, rfl⟩

/-! ## Totality of `search_lev` and the distance bound on emitted
candidates -/

mutual
theorem search_lev_some (n : Node) (s b : List Char) (limit : ℚ) :
    ∃ l, search_lev n s b limit = some l ∧ ∀ c ∈ l, (c.ld.total : ℚ) ≤ limit := by
  match n with
  | .mk i d dat kids =>
    unfold search_lev
    by_cases hi : i = 0
    · rw [if_pos hi]
      exact searchRootKids_some kids s limit
    · rw [if_neg hi]
      exact searchKids_some kids s b limit

theorem searchRootKids_some (ks : List (Char × Node)) (s : List Char) (limit : ℚ) :
    ∃ l, searchRootKids ks s limit = some l ∧ ∀ c ∈ l, (c.ld.total : ℚ) ≤ limit := by
  match ks with
  | [] => exact ⟨[], rfl, by simp⟩
  | (rn, v) :: rest =>
    obtain ⟨r, hr, hrP⟩ := search_lev_some v s [rn] limit
    obtain ⟨r', hr', hrP'⟩ := searchRootKids_some rest s limit
    refine ⟨r ++ r', ?_, ?_⟩
    · unfold searchRootKids
      rw [hr, hr']
      rfl
    · intro c hc
      rcases List.mem_append.1 hc with h | h
      · exact hrP c h
      · exact hrP' c h

theorem searchKids_some (ks : List (Char × Node)) (s b : List Char) (limit : ℚ) :
    ∃ l, searchKids ks s b limit = some l ∧ ∀ c ∈ l, (c.ld.total : ℚ) ≤ limit := by
  match ks with
  | [] => exact ⟨[], rfl, by simp⟩
  | (rn, v) :: rest =>
    obtain ⟨lev, hlev, -⟩ := lwo_some b s
    obtain ⟨r', hr', hrP'⟩ := searchKids_some rest s b limit
    by_cases hterm : v.done && v.kids.isEmpty
    · by_cases hle : (lev.total : ℚ) ≤ limit
      · refine ⟨{ word := b, ld := lev, Weight := .fin 0, frequency := v.data.getD 0,
                  prefix_len := 0, suffix_len := 0, key_len := 0 } :: r', ?_, ?_⟩
        · unfold searchKids
          rw [hlev, hr']
          simp [hterm, hle]
        · intro c hc
          rcases List.mem_cons.1 hc with h | h
          · rw [h]
            exact hle
          · exact hrP' c h
      · refine ⟨r', ?_, hrP'⟩
        unfold searchKids
        rw [hlev, hr']
        simp [hterm, hle]
    · obtain ⟨r, hr, hrP⟩ := search_lev_some v s (b ++ [rn]) limit
      refine ⟨r ++ r', ?_, ?_⟩
      · unfold searchKids
        rw [hlev, hr, hr']
        simp [hterm]
      · intro c hc
        rcases List.mem_append.1 hc with h | h
        · exact hrP c h
        · exact hrP' c h
end

/-! ## The selection loop of `PartialMatch` -/

theorem sorted_replicate_zero (n : Nat) :
    (List.replicate n Correction.zero).Sorted corrLe := by
  induction n with
  | zero => exact List.sorted_nil
  | succ k ih =>
    rw [List.replicate_succ, List.sorted_cons]
    refine ⟨?_, ih⟩
    intro c hc
    rw [List.eq_of_mem_replicate hc]
    show W.le (W.fin 0) (W.fin 0)
    simp [W.le]

/-- The loop invariant of `PartialMatch`: the buffer keeps its capacity,
the append cursor stays strictly inside it, every entry is either the
zero-valued sentinel or a candidate within the distance budget, and the
buffer is in ascending weight order. -/
def PMInv (target : ℚ) (mx : Nat) (st : W × List Correction × Nat) : Prop :=
  st.2.1.length = mx ∧ st.2.2 < mx ∧
    (∀ c ∈ st.2.1, c.word = [] ∨ (c.ld.total : ℚ) ≤ target) ∧
    st.2.1.Sorted corrLe

theorem sortCorrections_inv {target : ℚ} {l : List Correction} {v : Correction} {i : Nat}
    (hmem : ∀ c ∈ l, c.word = [] ∨ (c.ld.total : ℚ) ≤ target)
    (hv : (v.ld.total : ℚ) ≤ target) :
    (sortCorrections (l.set i v)).length = l.length ∧
      (∀ c ∈ sortCorrections (l.set i v), c.word = [] ∨ (c.ld.total : ℚ) ≤ target) ∧
      (sortCorrections (l.set i v)).Sorted corrLe := by
  refine ⟨?_, ?_, List.sorted_insertionSort corrLe _⟩
  · rw [sortCorrections, List.length_insertionSort, List.length_set]
  · intro c hc
    rw [sortCorrections, List.mem_insertionSort] at hc
    rcases List.mem_or_eq_of_mem_set hc with h | h
    · exact hmem c h
    · right
      rw [h]
      exact hv

theorem PartialMatchStep_some {s : List Char} {target : ℚ} {mx : Nat}
    {st : W × List Correction × Nat} (hst : PMInv target mx st) {v₀ : Correction}
    (hv₀ : (v₀.ld.total : ℚ) ≤ target) :
    ∃ st', PartialMatchStep s target mx st v₀ = some st' ∧ PMInv target mx st' := by
  obtain ⟨lim₀, res, last⟩ := st
  obtain ⟨hlen, hlast, hmem, hsort⟩ := hst
  simp only at hlen hlast hmem hsort
  obtain ⟨v, hw, hword, hld, -⟩ := weigh_some v₀ s
  have hvld : (v.ld.total : ℚ) ≤ target := by rw [hld]; exact hv₀
  unfold PartialMatchStep
  rw [hw]
  simp only [Option.some_bind, Option.bind_eq_bind]
  by_cases hacc : W.le (if lim₀ = W.fin 0 then v.Weight else lim₀) v.Weight
  · rw [if_pos hacc]
    have hlt : last < res.length := by omega
    rw [List.get?_eq_get hlt]
    dsimp only
    by_cases hfull : (res.get ⟨last, hlt⟩).word ≠ [] ∧ (res.get ⟨last, hlt⟩).ld.total ≠ 0
    · rw [if_pos hfull]
      cases hfind : res.findIdx? (fun k =>
          decide (W.lt k.Weight v.Weight) && decide ((v.ld.total : ℚ) ≤ target)) with
      | none =>
        exact ⟨_, rfl, hlen, hlast, hmem, hsort⟩
      | some i =>
        obtain ⟨h1, h2, h3⟩ := sortCorrections_inv hmem hvld (i := i)
        exact ⟨_, rfl, by simpa [hlen] using h1, hlast, h2, h3⟩
    · rw [if_neg hfull, if_pos (show last < mx from hlast)]
      obtain ⟨h1, h2, h3⟩ := sortCorrections_inv hmem hvld (i := last)
      refine ⟨_, rfl, by simpa [hlen] using h1, ?_, h2, h3⟩
      by_cases hinc : last + 1 < mx
      · simp only [if_pos hinc]
        exact hinc
      · simp only [if_neg hinc]
        exact hlast
  · rw [if_neg hacc]
    exact ⟨_, rfl, hlen, hlast, hmem, hsort⟩

/-- For a positive capacity, `PartialMatch` succeeds and its buffer has
exactly the capacity's length, in-budget or sentinel entries, and
ascending weight order. -/
theorem PartialMatch_props (n : Node) (s : List Char) (target : ℚ) (mx : Nat)
    (hmx : 1 ≤ mx) :
    ∃ res, PartialMatch n s target mx = some res ∧ res.length = mx ∧
      (∀ c ∈ res, c.word = [] ∨ (c.ld.total : ℚ) ≤ target) ∧ res.Sorted corrLe := by
  obtain ⟨f, hf, hfP⟩ := search_lev_some n s [] target
  obtain ⟨⟨lim', res, last'⟩, hfold, hinv⟩ := foldlM_inv (PMInv target mx)
    (fun c => (c.ld.total : ℚ) ≤ target) (PartialMatchStep s target mx) f hfP
    (.fin 0, List.replicate mx Correction.zero, 0)
    ⟨by simp, by simpa using hmx,
      by
        intro c hc
        left
        rw [List.eq_of_mem_replicate hc]
        rfl,
      sorted_replicate_zero mx⟩
    (fun st c hP hQ => PartialMatchStep_some hP hQ)
  refine ⟨res, ?_, hinv.1, hinv.2.2.1, hinv.2.2.2⟩
  unfold PartialMatch
  rw [hf]
  simp only [Option.some_bind, Option.bind_eq_bind]
  rw [hfold]
  rfl

/-! ## Behaviour of `Correct` -/

theorem mapGet_set_self (m : List (List Char × ℚ)) (k : List Char) (v : ℚ) :
    mapGet (mapSet m k v) k = some v := by
  induction m with
  | nil => simp [mapSet, mapGet]
  | cons p rest ih =>
    obtain ⟨k', v'⟩ := p
    by_cases h : k' = k
    · simp [mapSet, mapGet, h]
    · simp [mapSet, mapGet, h, ih]

theorem mapGet_set_other (m : List (List Char × ℚ)) {k k' : List Char} (v : ℚ)
    (h : k' ≠ k) : mapGet (mapSet m k v) k' = mapGet m k' := by
  induction m with
  | nil => simp [mapSet, mapGet, Ne.symm h]
  | cons p rest ih =>
    obtain ⟨k₀, v₀⟩ := p
    by_cases h0 : k₀ = k
    · subst h0
      simp [mapSet, mapGet, Ne.symm h]
    · simp only [mapSet, if_neg h0, mapGet]
      by_cases h1 : k₀ = k'
      · simp [h1, mapGet]
      · simp [h1, ih]

/-- Soundness of one `Correct` step, as a `foldlM` invariant: every
recorded word is a dictionary word mapped to its `levenshtein` value,
within the original limit, and the running limit never exceeds the
original. -/
def CorrectInv (dict : List (List Char)) (word : List Char) (lim₀ : ℚ)
    (st : List (List Char × ℚ) × ℚ) : Prop :=
  st.2 ≤ lim₀ ∧
    ∀ w d, mapGet st.1 w = some d →
      w ∈ dict ∧ ∃ nw, levenshtein word w = some nw ∧ d = (nw : ℚ) ∧ (nw : ℚ) ≤ lim₀

theorem CorrectStep_some {dict : List (List Char)} {word : List Char} {lim₀ : ℚ}
    {st : List (List Char × ℚ) × ℚ} (hst : CorrectInv dict word lim₀ st)
    {w : List Char} (hw : w ∈ dict) :
    ∃ st', CorrectStep word st w = some st' ∧ CorrectInv dict word lim₀ st' := by
  obtain ⟨hlim, hsound⟩ := hst
  obtain ⟨nw, hnw, -⟩ := levenshtein_some word w
  unfold CorrectStep
  rw [hnw]
  simp only [Option.some_bind, Option.bind_eq_bind]
  by_cases hle : (nw : ℚ) ≤ st.2
  · rw [if_pos hle]
    refine ⟨_, rfl, le_trans hle hlim, ?_⟩
    intro w' d hget
    by_cases hww : w' = w
    · subst hww
      rw [mapGet_set_self] at hget
      exact ⟨hw, nw, hnw, (Option.some_inj.1 hget).symm, le_trans hle hlim⟩
    · rw [mapGet_set_other _ _ hww] at hget
      exact hsound w' d hget
  · rw [if_neg hle]
    exact ⟨st, rfl, hlim, hsound⟩

/-- Completeness of `Correct` for minimum-distance words: walking any tail
of the scan, if the tracked word is still ahead (or already recorded), it
ends up recorded with its distance. -/
theorem Correct_fold_min {word wm : List Char} {dm : Nat}
    (hwm : levenshtein word wm = some dm) :
    ∀ (l : List (List Char)) (st : List (List Char × ℚ) × ℚ),
      (∀ w' ∈ l, ∀ d', levenshtein word w' = some d' → dm ≤ d') →
      (dm : ℚ) ≤ st.2 →
      (wm ∈ l ∨ mapGet st.1 wm = some (dm : ℚ)) →
      ∀ st', l.foldlM (CorrectStep word) st = some st' →
        mapGet st'.1 wm = some (dm : ℚ) := by
  intro l
  induction l with
  | nil =>
    intro st _ _ hc st' hfold
    rcases hc with h | h
    · simp at h
    · cases hfold
      exact h
  | cons w rest ih =>
    intro st hmin hlim hc st' hfold
    obtain ⟨nw, hnw, -⟩ := levenshtein_some word w
    rw [List.foldlM_cons] at hfold
    unfold CorrectStep at hfold
    rw [hnw] at hfold
    simp only [Option.some_bind, Option.bind_eq_bind] at hfold
    by_cases hle : (nw : ℚ) ≤ st.2
    · rw [if_pos hle] at hfold
      simp only [pure, Option.some_bind] at hfold
      have hnwm : dm ≤ nw := hmin w (List.mem_cons_self w rest) nw hnw
      refine ih _ (fun w' hw' d' hd' => hmin w' (List.mem_cons_of_mem w hw') d' hd')
        (by push_cast; exact_mod_cast hnwm) ?_ st' hfold
      by_cases hww : w = wm
      · right
        subst hww
        have : nw = dm := by rw [hnw] at hwm; exact Option.some_inj.1 hwm
        rw [this, mapGet_set_self]
      · rcases hc with h | h
        · rcases List.mem_cons.1 h with h' | h'
          · exact absurd h'.symm hww
          · exact Or.inl h'
        · right
          rw [mapGet_set_other _ _ (fun he => hww he.symm)]
          exact h
    · rw [if_neg hle] at hfold
      simp only [pure, Option.some_bind] at hfold
      have hwwm : w ≠ wm := by
        intro he
        subst he
        rw [hnw] at hwm
        cases hwm
        exact hle (le_trans le_rfl hlim)
      refine ih _ (fun w' hw' d' hd' => hmin w' (List.mem_cons_of_mem w hw') d' hd')
        hlim ?_ st' hfold
      rcases hc with h | h
      · rcases List.mem_cons.1 h with h' | h'
        · exact absurd h'.symm hwwm
        · exact Or.inl h'
      · exact Or.inr h

/-- `Correct` never fails; its result is sound for the original limit and
complete for the words at minimum distance. -/
theorem Correct_props (dict : List (List Char)) (word : List Char) (lim : ℚ) :
    ∃ m, Correct dict word lim = some m ∧
      (∀ w d, mapGet m w = some d →
        w ∈ dict ∧ ∃ nw, levenshtein word w = some nw ∧ d = (nw : ℚ) ∧ (nw : ℚ) ≤ lim) ∧
      (∀ wm ∈ dict, ∀ dm : Nat, levenshtein word wm = some dm → (dm : ℚ) ≤ lim →
        (∀ w' ∈ dict, ∀ d', levenshtein word w' = some d' → dm ≤ d') →
        mapGet m wm = some (dm : ℚ)) := by
  obtain ⟨⟨m, lim'⟩, hfold, hinv⟩ := foldlM_inv (CorrectInv dict word lim)
    (fun w => w ∈ dict) (CorrectStep word) dict (fun x hx => hx) ([], lim)
    ⟨le_rfl, by intro w d h; simp [mapGet] at h⟩
    (fun st w hP hQ => CorrectStep_some hP hQ)
  refine ⟨m, ?_, hinv.2, ?_⟩
  · unfold Correct
    rw [hfold]
    rfl
  · intro wm hwm dm hdm hlim hmin
    exact Correct_fold_min hdm dict ([], lim) hmin hlim (Or.inl hwm) (m, lim') hfold

/-! ## Auxiliary facts for the claim theorems -/

theorem W.leRefl (w : W) : W.le w w := by
  cases w <;> simp [W.le]

/-- With a zero-capacity buffer, `PartialMatch` can only return the empty
buffer: the first candidate's unguarded `res[last]` read panics. -/
theorem PartialMatch_zero_eq_nil {n : Node} {s : List Char} {target : ℚ}
    {l : List Correction} (h : PartialMatch n s target 0 = some l) : l = [] := by
  unfold PartialMatch at h
  obtain ⟨f, hf, -⟩ := search_lev_some n s [] target
  rw [hf] at h
  simp only [Option.some_bind, Option.bind_eq_bind] at h
  cases f with
  | nil =>
    simp only [List.foldlM_nil, List.replicate, Option.some_bind, Option.bind_eq_bind,
      pure, Option.some_inj] at h
    exact h.symm
  | cons v f' =>
    exfalso
    rw [List.foldlM_cons] at h
    have hstep : PartialMatchStep s target 0
        (.fin 0, List.replicate 0 Correction.zero, 0) v = none := by
      unfold PartialMatchStep
      obtain ⟨v', hw, -, -, -⟩ := weigh_some v s
      rw [hw]
      simp only [Option.some_bind, Option.bind_eq_bind]
      simp only [if_true]
      rw [if_pos (W.leRefl v'.Weight)]
      rfl
    rw [hstep] at h
    simp at h

/-- Descending weight order, the order the spec asserts for the result
buffer. -/
def corrGe (c₁ c₂ : Correction) : Prop := W.le c₂.Weight c₁.Weight

instance : DecidableRel corrGe := fun c₁ c₂ => by unfold corrGe; infer_instance

/-! ## Concrete fixtures for the counterexamples and witnesses -/

/-- A string literal as a character list. -/
def str (s : String) : List Char := s.data

/-- The running concrete query. -/
def qAB : List Char := str "ab"

/-- A trie holding exactly the word `"ab"` with payload 7: `a → b`, the
`b` node terminal and childless. -/
def leafB : Node := .mk 2 true (some 7) []
def nodeA : Node := .mk 1 false none [('b', leafB)]
def trieAB : Node := .mk 0 false none [('a', nodeA)]

/-- A trie holding the words `"abx"` and `"aby"`, each with payload 5. -/
def leafX : Node := .mk 3 true (some 5) []
def leafY : Node := .mk 4 true (some 5) []
def nodeB : Node := .mk 2 false none [('x', leafX), ('y', leafY)]
def nodeA2 : Node := .mk 1 false none [('b', nodeB)]
def trieABXY : Node := .mk 0 false none [('a', nodeA2)]

/-- The candidate `search_lev` emits for each of `"abx"`/`"aby"` against the
query `"ab"` — because the final character is dropped, the emitted word is
exactly the query, an exact match weighed `+Inf`. -/
def cAB : Correction :=
  { word := qAB, ld := ⟨0, 0, 0, 0⟩, prefix_len := 0, suffix_len := 0,
    frequency := 5, key_len := 0, Weight := .inf }

/-! ## The claims -/

set_option maxRecDepth 20000

/-- C1 (counterexample): on a trie holding `"abx"`/`"aby"` and the query
`"ab"`, the returned buffer is `[sentinel, exact, exact]`: the first slot is
the zero-valued sentinel (weight 0), the exact matches sit last, the first
adjacent pair already violates descending order, so the buffer is neither
sorted descending by weight nor headed by an exact-match candidate. -/
theorem C1_counterexample :
    PartialMatch trieABXY qAB 2 3 = some [Correction.zero, cAB, cAB] ∧
      cAB.word = qAB ∧ Correction.zero.word ≠ qAB ∧
      ¬ corrGe Correction.zero cAB ∧
      ¬ ([Correction.zero, cAB, cAB].Sorted corrGe) := by
  refine ⟨by decide, rfl, by decide, by decide, ?_⟩
  intro h
  rw [List.sorted_cons] at h
  exact absurd (h.1 cAB (by simp)) (by decide)

/-- C1 (amended): the buffer `PartialMatch` returns is sorted by
*ascending* weight (`sort.Slice` is called with the `<`-on-weight
comparator), so an admitted exact match (weight `+Inf`) is ranked last,
not first. -/
theorem C1_partialMatch_sorted_ascending (n : Node) (s : List Char) (target : ℚ)
    (mx : Nat) (l : List Correction) (h : PartialMatch n s target mx = some l) :
    l.Sorted corrLe := by
  cases Nat.eq_zero_or_pos mx with
  | inl h0 =>
    subst h0
    rw [PartialMatch_zero_eq_nil h]
    exact List.sorted_nil
  | inr hpos =>
    obtain ⟨res, hres, -, -, hsort⟩ := PartialMatch_props n s target mx hpos
    rw [h] at hres
    rw [Option.some_inj.1 hres]
    exact hsort

/-- C1 (witness): the counterexample run, sorted ascending. -/
theorem C1_witness : ([Correction.zero, cAB, cAB] : List Correction).Sorted corrLe :=
  C1_partialMatch_sorted_ascending trieABXY qAB 2 3 _ (by decide)

/-- C2: on the trie holding exactly `"ab"` (payload 7) and the query
`"ab"`, the generator emits a single candidate whose word is `"a"` — the
root-to-terminal path with its final character dropped — with the
breakdown of `"a"` versus the query (total 1), not the full path `"ab"`
(total 0): the emitted word is not the stored word. -/
theorem C2_truncated_word :
    search_lev trieAB qAB [] 2 =
      some [{ word := str "a", ld := ⟨1, 0, 1, 0⟩, prefix_len := 0, suffix_len := 0,
              frequency := 7, key_len := 0, Weight := .fin 0 }] ∧
      str "a" ≠ qAB := by
  exact ⟨by decide, by decide⟩

/-- C3 (counterexample): on `("aa", "aaa")` the function returns total 1
with counts `{subs 0, indel 1, swaps 1}`, whose sum is 2 ≠ 1: the counts
are not a decomposition of the total. -/
theorem C3_counterexample :
    levenshtein_with_operations (str "aa") (str "aaa") = some ⟨1, 0, 1, 1⟩ ∧
      (0 + 1 + 1 : Nat) ≠ 1 := by
  exact ⟨by decide, by decide⟩

/-- C3 (amended): the total returned by `levenshtein_with_operations` is
the minimum cost of an alignment of the two strings under
single-character insertion, deletion, substitution and adjacent
transposition, each of cost 1. -/
theorem C3_total_minimal (a b : List Char) :
    ∃ r, levenshtein_with_operations a b = some r ∧
      Aln a b r.total ∧ ∀ n, Aln a b n → r.total ≤ n := by
  obtain ⟨r, hr, htot⟩ := lwo_some a b
  obtain ⟨h1, h2⟩ := lwoTotal_least a b
  exact ⟨r, hr, htot ▸ h1, fun n hn => htot ▸ h2 n hn⟩

/-- C4: `levenshtein` returns 7 on `("burn", "bayou")` and 29 on
`("avid", "antidisestablishmentarianism")` — not the 4 and 25 the spec
(and the repository's own test expectations for its predecessor `ld`)
assert. -/
theorem C4_levenshtein_values :
    levenshtein (str "burn") (str "bayou") = some 7 ∧
      levenshtein (str "avid") (str "antidisestablishmentarianism") = some 29 ∧
      (7 : Nat) ≠ 4 ∧ (29 : Nat) ≠ 25 := by
  exact ⟨by decide, by decide, by decide, by decide⟩

/-- C5 (counterexample): with the word list `["ab", "abc"]`, query `"ab"`
and limit 3, the scan admits `"ab"` at distance 0 and *lowers the limit to
0*, so `"abc"` — at `levenshtein` distance 3 ≤ 3 — is missing from the
returned mapping. -/
theorem C5_counterexample :
    Correct [str "ab", str "abc"] (str "ab") 3 = some [(str "ab", 0)] ∧
      str "abc" ∈ [str "ab", str "abc"] ∧
      levenshtein (str "ab") (str "abc") = some 3 ∧ ((3 : Nat) : ℚ) ≤ 3 ∧
      mapGet [(str "ab", (0 : ℚ))] (str "abc") = none := by
  refine ⟨by decide, by simp, by decide, by norm_num, by decide⟩

/-- C5 (amended): `Correct` never fails; every entry of its result is a
dictionary word mapped to its `levenshtein` value within the original
limit, and every word achieving the minimum `levenshtein` value over the
list is present whenever that minimum is within the limit — but words
farther than an earlier-admitted match may be dropped, because the scan
shrinks the limit to each admitted distance. -/
theorem C5_correct_sound_min (dict : List (List Char)) (word : List Char) (lim : ℚ) :
    ∃ m, Correct dict word lim = some m ∧
      (∀ w d, mapGet m w = some d →
        w ∈ dict ∧ ∃ nw, levenshtein word w = some nw ∧ d = (nw : ℚ) ∧ (nw : ℚ) ≤ lim) ∧
      (∀ wm ∈ dict, ∀ dm : Nat, levenshtein word wm = some dm → (dm : ℚ) ≤ lim →
        (∀ w' ∈ dict, ∀ d', levenshtein word w' = some d' → dm ≤ d') →
        mapGet m wm = some (dm : ℚ)) :=
  Correct_props dict word lim

/-- C6 (counterexample): with `maxResults = 0` and any matching candidate,
the first buffer access `res[last]` is out of bounds — the Go function
panics instead of returning a sequence. -/
theorem C6_counterexample : PartialMatch trieABXY qAB 2 0 = none := by
  decide

/-- C6 (amended): for a positive capacity, `PartialMatch` returns a buffer
of length exactly `maxResults`, and every entry that is not the
zero-valued sentinel (empty word) has total edit distance within
`maxDistance`. -/
theorem C6_partialMatch_shape (n : Node) (s : List Char) (target : ℚ) (mx : Nat)
    (hmx : 1 ≤ mx) :
    ∃ l, PartialMatch n s target mx = some l ∧ l.length = mx ∧
      ∀ c ∈ l, c.word ≠ [] → (c.ld.total : ℚ) ≤ target := by
  obtain ⟨res, hres, hlen, hmem, -⟩ := PartialMatch_props n s target mx hmx
  refine ⟨res, hres, hlen, ?_⟩
  intro c hc hw
  rcases hmem c hc with h | h
  · exact absurd h hw
  · exact h

/-- C6 (witness): the fixture trie at capacity 3. -/
theorem C6_witness :
    ∃ l, PartialMatch trieABXY qAB 2 3 = some l ∧ l.length = 3 ∧
      ∀ c ∈ l, c.word ≠ [] → (c.ld.total : ℚ) ≤ 2 :=
  C6_partialMatch_shape trieABXY qAB 2 3 (by decide)

/-- C7: `levenshtein` is not symmetric: it returns 2 on `("a", "aa")` but
1 on `("aa", "a")`. -/
theorem C7_levenshtein_asymmetric :
    levenshtein (str "a") (str "aa") = some 2 ∧
      levenshtein (str "aa") (str "a") = some 1 ∧ (2 : Nat) ≠ 1 := by
  exact ⟨by decide, by decide, by decide⟩

/-- C8: the stated keyboard proximities hold, and proximity of any
character to itself is 0. -/
theorem C8_keyProximity_values :
    KeyProximity 'r' 't' = 1 ∧ KeyProximity 'v' 'p' = 6 ∧
      KeyProximity '1' '.' = 7 ∧ ∀ x : Char, KeyProximity x x = 0 := by
  refine ⟨by decide, by decide, by decide, ?_⟩
  intro x
  unfold KeyProximity
  rw [if_pos rfl]

/-- C9: the edit-distance and scoring core never fails: `levenshtein`,
`levenshtein_with_operations`, `weigh` and its helpers return a value on
every input (every bounds-checked slice access is in range), and with the
caller contract `maxResults ≥ 1` so does `PartialMatch`, whose only
unguarded buffer read `res[last]` stays inside the buffer. -/
theorem C9_total_core :
    (∀ a b : List Char, (levenshtein a b).isSome = true) ∧
      (∀ a b : List Char, (levenshtein_with_operations a b).isSome = true) ∧
      (∀ (c : Correction) (s : List Char), (weigh c s).isSome = true) ∧
      (∀ o t : List Char, (PrefixLength o t).isSome = true) ∧
      (∀ o t : List Char, (SharedCharacters o t).isSome = true) ∧
      (∀ (n : Node) (s b : List Char) (limit : ℚ), (search_lev n s b limit).isSome = true) ∧
      (∀ (n : Node) (s : List Char) (target : ℚ) (mx : Nat), 1 ≤ mx →
        (PartialMatch n s target mx).isSome = true) := by
  refine ⟨?_, ?_, ?_, ?_, ?_, ?_, ?_⟩
  · intro a b
    obtain ⟨n, hn, -⟩ := levenshtein_some a b
    rw [hn]
    rfl
  · intro a b
    obtain ⟨r, hr, -⟩ := lwo_some a b
    rw [hr]
    rfl
  · intro c s
    obtain ⟨c', hc', -⟩ := weigh_some c s
    rw [hc']
    rfl
  · intro o t
    obtain ⟨n, hn⟩ := PrefixLength_some o t
    rw [hn]
    rfl
  · intro o t
    obtain ⟨n, hn⟩ := SharedCharacters_some o t
    rw [hn]
    rfl
  · intro n s b limit
    obtain ⟨l, hl, -⟩ := search_lev_some n s b limit
    rw [hl]
    rfl
  · intro n s target mx hmx
    obtain ⟨res, hres, -, -, -⟩ := PartialMatch_props n s target mx hmx
    rw [hres]
    rfl

/-- C10: outside its early returns (empty or equal strings), `levenshtein`
stores its dynamic-programming row in `uint8` cells, so the returned value
is always strictly below 256. -/
theorem C10_levenshtein_lt_256 (a b : List Char) (ha : a ≠ []) (hb : b ≠ [])
    (hab : a ≠ b) : ∃ n, levenshtein a b = some n ∧ n < 256 := by
  obtain ⟨n, hn, hlt⟩ := levenshtein_some a b
  exact ⟨n, hn, hlt ha hb hab⟩

/-- C10 (witness): a concrete unequal non-empty pair. -/
theorem C10_witness :
    ∃ n, levenshtein (str "a") (str "b") = some n ∧ n < 256 :=
  C10_levenshtein_lt_256 (str "a") (str "b") (by decide) (by decide) (by decide)

end Spell
